import Mathlib

/-!
Verification of the progsnap reading library (`progsnap.py`).

The Python source is shallowly embedded: Python strings become `List Char`
(indexing and slicing in the source are character based), Python `dict`s
built from JSON objects become association lists with last-binding-wins
lookup, fallible operations return `Except`, and the distinct `ProgsnapError`
sites are distinguished by explicit error constructors.
-/

deriving instance DecidableEq for Except

namespace Progsnap

/-! ## Text document (`TextDocument`, progsnap.py lines 513-606) -/

/-- Python slice `s[a:b]` on a string modelled as a character list. -/
def pySlice (s : List Char) (a b : Nat) : List Char :=
  (s.take b).drop a

/-- Embeds `_line_chunks` (lines 513-526): split the text into maximal
chunks each ending at a newline, the final chunk possibly unterminated.
The source scans with `str.find`; this structural recursion produces the
same chunks character by character. -/
def lineChunks : List Char → List (List Char)
  | [] => []
  | c :: rest =>
    if c = '\n' then [c] :: lineChunks rest
    else
      match lineChunks rest with
      | [] => [[c]]
      | l :: ls => (c :: l) :: ls

/-- Python `s.endswith("\n")`; on the empty string this is `false`. -/
def endsWithNewline (s : List Char) : Bool :=
  match s.getLast? with
  | some c => c = '\n'
  | none => false

/-- Embeds `TextDocument.get_num_lines` (lines 537-543): count the
newlines, and add one when the text does not end with a newline. -/
def get_num_lines (s : List Char) : Nat :=
  let num_nl := s.count '\n'
  if !endsWithNewline s then num_nl + 1 else num_nl

/-- Index of the first `'\n'`, as Python `s.find("\n")` (none when absent). -/
def findNewline : List Char → Option Nat
  | [] => none
  | c :: rest =>
    if c = '\n' then some 0
    else (findNewline rest).map (· + 1)

/-- Offset of the first character of `row`, embedding the skip loop of
`TextDocument._get_pos` (lines 594-601): repeatedly find the next newline
and advance past it; `none` when the text runs out of lines ("No such
line in TextDocument"). -/
def lineStart (s : List Char) : Nat → Option Nat
  | 0 => some 0
  | row + 1 =>
    match findNewline s with
    | none => none
    | some i => (lineStart (s.drop (i + 1)) row).map (· + (i + 1))

/-- The two failure modes of `TextDocument._get_pos`. -/
inductive PosErr where
  | noSuchLine
  | outOfBounds
  deriving DecidableEq

/-- Embeds `TextDocument._get_pos` (lines 590-606): resolve `(row, col)`
to an absolute offset.  The column is added to the start offset of the
row and only the sum is checked against the buffer length. -/
def get_pos (s : List Char) (row col : Nat) : Except PosErr Nat :=
  match lineStart s row with
  | none => .error .noSuchLine
  | some p =>
    let pos := p + col
    if pos > s.length then .error .outOfBounds else .ok pos

/-- Embeds `TextDocument.insert_at` (lines 562-565). -/
def insert_at (s : List Char) (row col : Nat) (text : List Char) :
    Except PosErr (List Char) :=
  match get_pos s row col with
  | .error e => .error e
  | .ok pos => .ok (s.take pos ++ text ++ s.drop pos)

/-- The failure modes of `TextDocument.delete_at`. -/
inductive DelErr where
  | pos (e : PosErr)
  | beyondEnd
  | mismatch
  deriving DecidableEq

/-- The class constant `TextDocument.VERIFY_DELETES` (line 532). -/
def VERIFY_DELETES : Bool := true

/-- The verification-and-splice tail of `TextDocument.delete_at`
(lines 582-587): compare the slice `s[pos:endpos]` against the expected
text when verification is on, then remove the slice. -/
def delete_range (s : List Char) (pos endpos : Nat) (text : List Char) :
    Except DelErr (List Char) :=
  if VERIFY_DELETES then
    let to_remove := pySlice s pos endpos
    if to_remove ≠ text then .error .mismatch
    else .ok (s.take pos ++ s.drop endpos)
  else .ok (s.take pos ++ s.drop endpos)

/-- Embeds `TextDocument.delete_at` (lines 567-587): resolve the start
offset, and when the end offset runs exactly one character past the end
of the buffer and the text ends with a newline, drop that newline from
both before verifying; any other overrun fails. -/
def delete_at (s : List Char) (row col : Nat) (text : List Char) :
    Except DelErr (List Char) :=
  match get_pos s row col with
  | .error e => .error (.pos e)
  | .ok pos =>
    let endpos := pos + text.length
    if endpos > s.length then
      if endpos = s.length + 1 ∧ endsWithNewline text then
        delete_range s pos (endpos - 1) text.dropLast
      else .error .beyondEnd
    else delete_range s pos endpos text

/-! ## Work history events (`Edit`, `Submission`, ..., progsnap.py lines 281-395)

The event classes are dynamic property bags (`_HasProps`); the fields the
work-history operations consult are the event kind, the normalized
timestamp `ts`, the optional `editid`, and the optional `snapids` list,
so the model records exactly those (`none` models an absent property). -/

inductive EventKind where
  | edit
  | submission
  | compilation
  | testresults
  deriving DecidableEq

structure Event where
  kind : EventKind
  ts : Int
  editid : Option Int := none
  snapids : Option (List String) := none
  deriving DecidableEq

/-- Embeds the comparator `compare_events` inside
`WorkHistory._read_work_history` (lines 385-393): compare by `editid`
when both events carry one and they differ, otherwise by timestamp. -/
def compare_events (a b : Event) : Int :=
  match a.editid, b.editid with
  | some x, some y =>
    let cmp := x - y
    if cmp ≠ 0 then cmp else a.ts - b.ts
  | _, _ => a.ts - b.ts

/-- Stable insertion of an event into an already-processed list: the new
event goes before the first element it does not compare strictly after. -/
def insertEvent (x : Event) : List Event → List Event
  | [] => [x]
  | y :: ys =>
    if compare_events x y ≤ 0 then x :: y :: ys
    else y :: insertEvent x ys

/-- Models `self._events.sort(key=functools.cmp_to_key(compare_events))`
(line 395): Python `list.sort` is a stable comparison sort, modelled here
as stable insertion sort with `compare_events`. -/
def sortEvents (events : List Event) : List Event :=
  events.foldr insertEvent []

/-- The sorting step of `WorkHistory._read_work_history` (lines 384-395):
the loaded event list is re-sorted only when sorting was requested. -/
def sortIfRequested (sortworkhistory : Bool) (events : List Event) :
    List Event :=
  if sortworkhistory then sortEvents events else events

/-- Whether an event is an `Edit` whose `snapids` list contains `snapid`
(the loop test of `find_edit_events_with_snapid`, line 337: the event has
type `Edit`, has a `snapids` property, and `snapid in evt.snapids()`). -/
def matchesSnapid (snapid : String) (evt : Event) : Bool :=
  evt.kind = .edit &&
    (match evt.snapids with
     | some ids => ids.contains snapid
     | none => false)

/-- Embeds `WorkHistory.find_edit_events_with_snapid` (lines 333-339):
collect, in sequence order, the Edit events whose snapids contain the id. -/
def find_edit_events_with_snapid (events : List Event) (snapid : String) :
    List Event :=
  events.filter (matchesSnapid snapid)

/-- The failure mode of `find_single_edit_event_with_snapid`. -/
inductive LookupErr where
  | multipleMatches
  deriving DecidableEq

/-- Embeds `WorkHistory.find_single_edit_event_with_snapid`
(lines 346-352): `none` on zero candidates, the single candidate on one,
an error on more. -/
def find_single_edit_event_with_snapid (events : List Event)
    (snapid : String) : Except LookupErr (Option Event) :=
  let candidates := find_edit_events_with_snapid events snapid
  if candidates.length = 0 then .ok none
  else if candidates.length = 1 then .ok candidates.head?
  else .error .multipleMatches

/-! ## Tag handler (`TagHandler`, progsnap.py lines 170-195)

Python `dict`s are modelled as association lists in insertion order where
assigning to an existing key overwrites it in place. -/

/-- Python `d[k] = v` on a dict: overwrite the existing binding, else
append a new one. -/
def dictInsert {α : Type} (d : List (String × α)) (k : String) (v : α) :
    List (String × α) :=
  if d.any (fun p => p.1 = k) then
    d.map (fun p => if p.1 = k then (k, v) else p)
  else d ++ [(k, v)]

/-- Python `d[k]` / `k in d` on a dict, as an optional lookup. -/
def dictLookup {α : Type} (d : List (String × α)) (k : String) : Option α :=
  match d.find? (fun p => p.1 = k) with
  | some p => some p.2
  | none => none

/-- Python `k in d` on a dict. -/
def dictContains {α : Type} (d : List (String × α)) (k : String) : Bool :=
  d.any (fun p => p.1 = k)

/-- A `TagHandler`: its `_handlers` dict, with callbacks abstracted to an
arbitrary type `α` (the Python callbacks are opaque function values). -/
structure TagHandler (α : Type) where
  handlers : List (String × α)

/-- Embeds `TagHandler.__init__` (lines 171-177): install the no-op
handler under `'unknown'`, then the supplied callbacks; `noop` stands for
`lambda tag, value: None`. -/
def TagHandler.init {α : Type} (noop : α) (callbacks : List (String × α)) :
    TagHandler α :=
  ⟨callbacks.foldl (fun d p => dictInsert d p.1 p.2)
    (dictInsert [] "unknown" noop)⟩

/-- Embeds `TagHandler.register_callback` (lines 180-181). -/
def TagHandler.register_callback {α : Type} (th : TagHandler α)
    (tagname : String) (tv_callback : α) : TagHandler α :=
  ⟨dictInsert th.handlers tagname tv_callback⟩

/-- Embeds `TagHandler.get_callback` (lines 191-195): the handler bound
to `tagname` when there is one, else the handler bound to `'unknown'`. -/
def TagHandler.get_callback {α : Type} (th : TagHandler α)
    (tagname : String) : Option α :=
  if dictContains th.handlers tagname then dictLookup th.handlers tagname
  else dictLookup th.handlers "unknown"

/-- The handler every unrecognized tag falls back to: the binding of
`'unknown'` in the handler dict. -/
def TagHandler.fallback {α : Type} (th : TagHandler α) : Option α :=
  dictLookup th.handlers "unknown"

/-! ## Tagged-record scanner (`_scan`, progsnap.py lines 42-61)

A parsed JSON value; a line of a progsnap data file parses to a JSON
object, modelled as its field list in source order (`jlookup` returns the
last binding, as a Python dict built from duplicate keys would). -/

inductive JVal where
  | null
  | jbool (b : Bool)
  | jnum (n : Int)
  | jstr (s : String)
  | jarr (elems : List JVal)
  | jobj (fields : List (String × JVal))

/-- Lookup in a parsed JSON object: the last binding of the key wins. -/
def jlookup (fields : List (String × JVal)) (k : String) : Option JVal :=
  match fields with
  | [] => none
  | (k2, v) :: rest =>
    match jlookup rest k with
    | some v2 => some v2
    | none => if k2 = k then some v else none

/-- The well-formedness test of `_scan` (line 56): the object must have a
`tag` field holding a string and a `value` field; on success, the
`(tag, value)` pair the handler is invoked with (line 61). -/
def tagValueOf (line : List (String × JVal)) : Option (String × JVal) :=
  match jlookup line "tag", jlookup line "value" with
  | some (.jstr t), some v => some (t, v)
  | _, _ => none

/-- Embeds the loop of `_scan` (lines 42-61) over already-parsed object
lines, `lineNo` being the 1-based number of the next line: returns the
sequence of `(tag, value)` handler invocations performed, paired with the
line number of the first malformed record when one stopped the scan
(`raise ProgsnapError("Invalid data at line ...")`, line 57). -/
def scanAux (lineNo : Nat) :
    List (List (String × JVal)) → List (String × JVal) × Option Nat
  | [] => ([], none)
  | line :: rest =>
    match tagValueOf line with
    | some tv =>
      let r := scanAux (lineNo + 1) rest
      (tv :: r.1, r.2)
    | none => ([], some lineNo)

/-- `_scan` starting at the first line (`line_no` is incremented to 1
before the first record is examined). -/
def scanTrace (lines : List (List (String × JVal))) :
    List (String × JVal) × Option Nat :=
  scanAux 1 lines

/-! ## Storage abstraction (progsnap.py lines 95-162) -/

/-- One directory of the underlying filesystem: its path and the names
`os.listdir` yields for it, in the order the operating system enumerates
them (that order is arbitrary; `os.listdir` does not sort). -/
structure OsDir where
  path : String
  children : List String
  deriving DecidableEq

/-- `os.listdir` over the modelled filesystem. -/
def os_listdir (fs : List OsDir) (p : String) : List String :=
  match fs.find? (fun d => d.path = p) with
  | some d => d.children
  | none => []

/-- Embeds `_ProgsnapDirectory.listdir` (lines 108-109): delegate to
`os.listdir` on the joined path, returning its list unchanged. -/
def directory_listdir (fs : List OsDir) (basedir path : String) :
    List String :=
  os_listdir fs (basedir ++ "/" ++ path)

/-- Python `s.find(c)` on a string as a character list. -/
def pyFindChar (c : Char) : List Char → Option Nat
  | [] => none
  | x :: rest =>
    if x = c then some 0
    else (pyFindChar c rest).map (· + 1)

/-- The member extracted from one archive entry by
`_ProgsnapZipfile.listdir` (lines 158-159): `rest[:first_slash]` when the
first slash of `rest` sits at a positive index, otherwise all of `rest`. -/
def zipMemberOf (rest : List Char) : List Char :=
  match pyFindChar '/' rest with
  | some i => if i > 0 then rest.take i else rest
  | none => rest

/-- The members accumulated by the loop of `_ProgsnapZipfile.listdir`
(lines 148-161), in entry order: for every entry name extending the
prefix `path ++ "/"` with a nonempty remainder `rest`, the extracted
member (`pfx.isPrefixOf fname` is `fname.startswith(pfx)` and
`fname.drop pfx.length` is `fname[len(pfx):]`). -/
def zipMembers (names : List (List Char)) (path : List Char) :
    List (List Char) :=
  names.foldr
    (fun fname acc =>
      if (path ++ ['/']).isPrefixOf fname then
        if fname.drop (path ++ ['/']).length ≠ [] then
          zipMemberOf (fname.drop (path ++ ['/']).length) :: acc
        else acc
      else acc)
    []

/-- Lexicographic strict order on character lists: the order Python
`sorted` uses on the archive member strings. -/
def lexLt : List Char → List Char → Bool
  | _, [] => false
  | [], _ :: _ => true
  | a :: as, b :: bs => if a = b then lexLt as bs else decide (a < b)

/-- Insert into a sorted duplicate-free list, keeping it so. -/
def insertSortedDedup (x : List Char) :
    List (List Char) → List (List Char)
  | [] => [x]
  | y :: ys =>
    if x = y then y :: ys
    else if lexLt x y then x :: y :: ys
    else y :: insertSortedDedup x ys

/-- Models `sorted(list(result))` where `result` is a Python set
(line 162): the sorted, duplicate-free list of the collected members. -/
def sortedDedup (l : List (List Char)) : List (List Char) :=
  l.foldr insertSortedDedup []

/-- Embeds `_ProgsnapZipfile.listdir` (lines 146-162): collect the
members and present them as a sorted set. -/
def zipfile_listdir (names : List (List Char)) (path : List Char) :
    List (List Char) :=
  sortedDedup (zipMembers names path)

/-! ## Theorems -/

/-- C1: on a buffer where the delete range runs exactly one character past
the end and the deleted text ends with a newline, `delete_at` proceeds on
the range and text with the trailing newline dropped; any other overrun of
the end fails with the deletion-beyond-end error; and on buffer `"\ndef"`,
deleting `"def\n"` at `(1,0)` succeeds and leaves `"\n"`. -/
theorem delete_at_trailing_newline_quirk :
    (∀ (s : List Char) (row col : Nat) (text : List Char) (pos : Nat),
      get_pos s row col = .ok pos →
      pos + text.length = s.length + 1 →
      endsWithNewline text = true →
      delete_at s row col text = delete_range s pos s.length text.dropLast)
    ∧ (∀ (s : List Char) (row col : Nat) (text : List Char) (pos : Nat),
      get_pos s row col = .ok pos →
      s.length < pos + text.length →
      pos + text.length ≠ s.length + 1 →
      delete_at s row col text = .error .beyondEnd)
    ∧ delete_at "\ndef".toList 1 0 "def\n".toList = .ok "\n".toList := by
  refine ⟨?_, ?_, by decide⟩
  · intro s row col text pos hpos hlen hnl
    have h1 : pos + text.length > s.length := by omega
    simp only [delete_at, hpos, h1, if_pos, hlen, hnl, and_self, if_true]
    have h2 : s.length + 1 - 1 = s.length := by omega
    rw [h2, if_pos (Nat.lt_succ_self _)]
  · intro s row col text pos hpos hlen hne
    have h1 : pos + text.length > s.length := by omega
    simp [delete_at, hpos, h1, hne]

/-- Witness for C1 at concrete inputs. -/
theorem delete_at_trailing_newline_quirk_witness :
    delete_at "\ndef".toList 1 0 "def\n".toList
      = delete_range "\ndef".toList 1 "\ndef".toList.length "def\n".toList.dropLast
    ∧ delete_at "abc".toList 0 0 "abcde\n".toList = .error .beyondEnd :=
  ⟨delete_at_trailing_newline_quirk.1 "\ndef".toList 1 0 "def\n".toList 1
      (by decide) (by decide) (by decide),
   delete_at_trailing_newline_quirk.2.1 "abc".toList 0 0 "abcde\n".toList 0
      (by decide) (by decide) (by decide)⟩

/-- C2: once the delete range fits in the buffer (directly, or through the
trailing-newline exception), `delete_at` fails with the mismatch error
exactly when the buffer slice differs from the (possibly adjusted) text,
and on agreement it removes the slice. -/
theorem delete_at_mismatch_iff :
    ∀ (s : List Char) (row col : Nat) (text : List Char) (pos : Nat),
      get_pos s row col = .ok pos →
      ((pos + text.length ≤ s.length →
        ((delete_at s row col text = .error .mismatch
            ↔ pySlice s pos (pos + text.length) ≠ text)
          ∧ (pySlice s pos (pos + text.length) = text →
            delete_at s row col text
              = .ok (s.take pos ++ s.drop (pos + text.length)))))
      ∧ (pos + text.length = s.length + 1 → endsWithNewline text = true →
        ((delete_at s row col text = .error .mismatch
            ↔ pySlice s pos s.length ≠ text.dropLast)
          ∧ (pySlice s pos s.length = text.dropLast →
            delete_at s row col text
              = .ok (s.take pos ++ s.drop s.length))))) := by
  intro s row col text pos hpos
  constructor
  · intro hle
    have h1 : ¬ (pos + text.length > s.length) := by omega
    simp only [delete_at, hpos, h1, if_false, delete_range, VERIFY_DELETES,
      if_true, ite_not]
    constructor
    · by_cases h : pySlice s pos (pos + text.length) = text <;> simp [h]
    · intro h; simp [h]
  · intro hlen hnl
    have h1 : pos + text.length > s.length := by omega
    simp only [delete_at, hpos, h1, if_pos, hlen, hnl, and_self, if_true,
      delete_range, VERIFY_DELETES, ite_not]
    have h2 : s.length + 1 - 1 = s.length := by omega
    rw [h2, if_pos (Nat.lt_succ_self _)]
    constructor
    · by_cases h : pySlice s pos s.length = text.dropLast <;> simp [h]
    · intro h; simp [h]

/-- Witness for C2 at concrete inputs: a matching delete removes the
slice, a mismatching delete fails with the mismatch error. -/
theorem delete_at_mismatch_iff_witness :
    (delete_at "abc\ndef".toList 0 0 "abc".toList = .ok "\ndef".toList)
    ∧ (delete_at "abc".toList 0 0 "abd".toList = .error .mismatch) := by
  constructor
  · have h := (delete_at_mismatch_iff "abc\ndef".toList 0 0 "abc".toList 0
      (by decide)).1 (by decide)
    exact h.2 (by decide)
  · have h := (delete_at_mismatch_iff "abc".toList 0 0 "abd".toList 0
      (by decide)).1 (by decide)
    exact (h.1).mpr (by decide)

/-- C3 counterexample: on the empty buffer `get_num_lines` returns 1, not
the 0 the claim states (Python `"".endswith("\n")` is false, so the
"+1 for trailing content" branch fires even with no content), while the
buffer indeed has zero lines. -/
theorem get_num_lines_empty_counterexample :
    get_num_lines ([] : List Char) = 1
    ∧ get_num_lines ([] : List Char) ≠ 0
    ∧ (lineChunks ([] : List Char)).length = 0 := by decide

theorem lineChunks_ne_nil (s : List Char) (h : s ≠ []) : lineChunks s ≠ [] := by
  match s with
  | c :: rest =>
    simp only [lineChunks]
    split
    · simp
    · match lineChunks rest with
      | [] => simp
      | l :: ls => simp

theorem lineChunks_cons_newline (rest : List Char) :
    lineChunks ('\n' :: rest) = ['\n'] :: lineChunks rest := by
  simp [lineChunks]

theorem lineChunks_cons_other (c : Char) (rest : List Char) (hc : c ≠ '\n') :
    lineChunks (c :: rest)
      = match lineChunks rest with
        | [] => [[c]]
        | l :: ls => (c :: l) :: ls := by
  simp [lineChunks, hc]

/-- C3 amended: for every nonempty buffer, `get_num_lines` is the number
of line chunks of the buffer (newline-terminated lines plus one for
trailing content after the last newline, with no phantom empty final line
when the buffer ends in a newline); the empty buffer returns 1, not 0. -/
theorem get_num_lines_eq_lineChunks_length :
    ∀ s : List Char, s ≠ [] → get_num_lines s = (lineChunks s).length := by
  intro s
  induction s with
  | nil => intro h; exact absurd rfl h
  | cons c rest ih =>
    intro _
    match hr : rest with
    | [] =>
      by_cases hc : c = '\n'
      · subst hc; decide
      · simp [get_num_lines, lineChunks, endsWithNewline, hc, List.count_cons]
    | d :: t =>
      have hrest : d :: t ≠ [] := by simp
      have hend : endsWithNewline (c :: d :: t) = endsWithNewline (d :: t) := by
        simp [endsWithNewline, List.getLast?_cons_cons]
      have ihr := ih hrest
      by_cases hc : c = '\n'
      · subst hc
        rw [lineChunks_cons_newline, List.length_cons, ← ihr]
        simp [get_num_lines, hend, List.count_cons]
        split <;> omega
      · rw [lineChunks_cons_other c _ hc]
        cases hl : lineChunks (d :: t) with
        | nil => exact absurd hl (lineChunks_ne_nil _ hrest)
        | cons l ls =>
          rw [hl] at ihr
          simp only [List.length_cons]
          rw [List.length_cons] at ihr
          rw [← ihr]
          simp [get_num_lines, hend, List.count_cons, hc]

/-- Witness for C3 amended at concrete inputs. -/
theorem get_num_lines_eq_lineChunks_length_witness :
    get_num_lines "abc\ndef".toList = (lineChunks "abc\ndef".toList).length
    ∧ get_num_lines "abc\n".toList = (lineChunks "abc\n".toList).length :=
  ⟨get_num_lines_eq_lineChunks_length "abc\ndef".toList (by decide),
   get_num_lines_eq_lineChunks_length "abc\n".toList (by decide)⟩

/-- C9: `_get_pos` never checks the column against the addressed line:
whenever the row resolves to a start offset and that offset plus the
column fits in the buffer, resolution succeeds with exactly that sum; on
buffer `"ab\ncd"`, `(0,4)` resolves to offset 4 even though line 0 has
only 3 characters, so inserting there lands inside line 1. -/
theorem get_pos_ignores_line_length :
    (∀ (s : List Char) (row col p : Nat),
      lineStart s row = some p → p + col ≤ s.length →
      get_pos s row col = .ok (p + col))
    ∧ get_pos "ab\ncd".toList 0 4 = .ok 4
    ∧ 4 > ((lineChunks "ab\ncd".toList).getD 0 []).length
    ∧ insert_at "ab\ncd".toList 0 4 "X".toList = .ok "ab\ncXd".toList := by
  refine ⟨?_, by decide, by decide, by decide⟩
  intro s row col p hrow hle
  have h : ¬ (p + col > s.length) := by omega
  simp [get_pos, hrow, h]

/-- Witness for C9 at concrete inputs. -/
theorem get_pos_ignores_line_length_witness :
    get_pos "ab\ncd".toList 1 2 = .ok 5 :=
  get_pos_ignores_line_length.1 "ab\ncd".toList 1 2 3 (by decide) (by decide)

theorem compare_events_antisymm (a b : Event) :
    compare_events b a = -compare_events a b := by
  unfold compare_events
  cases a.editid <;> cases b.editid
  all_goals dsimp only
  all_goals try (split <;> split)
  all_goals omega

theorem insertEvent_perm (x : Event) (l : List Event) :
    (insertEvent x l).Perm (x :: l) := by
  induction l with
  | nil => exact List.Perm.refl _
  | cons y ys ih =>
    unfold insertEvent
    split
    · exact List.Perm.refl _
    · exact (ih.cons y).trans (List.Perm.swap x y ys)

theorem sortEvents_perm (l : List Event) : (sortEvents l).Perm l := by
  induction l with
  | nil => exact List.Perm.refl _
  | cons x xs ih =>
    have : sortEvents (x :: xs) = insertEvent x (sortEvents xs) := rfl
    rw [this]
    exact (insertEvent_perm x (sortEvents xs)).trans (ih.cons x)

theorem chain'_insertEvent (x : Event) (l : List Event)
    (h : List.Chain' (fun a b => compare_events a b ≤ 0) l) :
    List.Chain' (fun a b => compare_events a b ≤ 0) (insertEvent x l) := by
  induction l with
  | nil => simp [insertEvent]
  | cons y ys ih =>
    unfold insertEvent
    split
    · exact List.chain'_cons.mpr ⟨by assumption, h⟩
    · rename_i hgt
      have hyx : compare_events y x ≤ 0 := by
        have := compare_events_antisymm x y
        omega
      have htail := ih h.tail
      refine List.chain'_cons'.mpr ⟨?_, htail⟩
      intro b hb
      cases ys with
      | nil => simp [insertEvent] at hb; subst hb; exact hyx
      | cons z zs =>
        have hz : compare_events y z ≤ 0 := (List.chain'_cons.mp h).1
        by_cases hxz : compare_events x z ≤ 0
        · simp [insertEvent, hxz] at hb; subst hb; exact hyx
        · simp [insertEvent, hxz] at hb; subst hb; exact hz

theorem chain'_sortEvents (l : List Event) :
    List.Chain' (fun a b => compare_events a b ≤ 0) (sortEvents l) := by
  induction l with
  | nil => simp [sortEvents]
  | cons x xs ih => exact chain'_insertEvent x (sortEvents xs) ih

theorem sortEvents_of_chain' (l : List Event)
    (h : List.Chain' (fun a b => compare_events a b ≤ 0) l) :
    sortEvents l = l := by
  induction l with
  | nil => rfl
  | cons x xs ih =>
    have h1 : sortEvents (x :: xs) = insertEvent x (sortEvents xs) := rfl
    rw [h1, ih h.tail]
    cases xs with
    | nil => rfl
    | cons y ys =>
      have hxy : compare_events x y ≤ 0 := (List.chain'_cons.mp h).1
      simp [insertEvent, hxy]

/-- C4: with sorting requested, the loaded event list is a permutation of
the file's events in which consecutive events are ordered by the
comparator (editid ascending when both carry one and they differ,
timestamp ascending otherwise); in particular the file order
`[Edit(editid=5, ts=100), Edit(editid=2, ts=200)]` is presented as
`[editid=2, editid=5]`. -/
theorem sorted_work_history_ordered :
    (∀ events : List Event,
      (sortIfRequested true events).Perm events
      ∧ List.Chain' (fun a b => compare_events a b ≤ 0)
          (sortIfRequested true events))
    ∧ sortIfRequested true
        [{ kind := .edit, ts := 100, editid := some 5 },
         { kind := .edit, ts := 200, editid := some 2 }]
      = [{ kind := .edit, ts := 200, editid := some 2 },
         { kind := .edit, ts := 100, editid := some 5 }] := by
  refine ⟨fun events => ⟨?_, ?_⟩, by decide⟩
  · simpa [sortIfRequested] using sortEvents_perm events
  · simpa [sortIfRequested] using chain'_sortEvents events

/-- C5: sorting a work history's events twice yields the same sequence as
sorting once. -/
theorem sortEvents_idempotent :
    ∀ events : List Event, sortEvents (sortEvents events) = sortEvents events :=
  fun events => sortEvents_of_chain' _ (chain'_sortEvents events)

theorem scanAux_all_ok (lines : List (List (String × JVal))) :
    ∀ n : Nat, (∀ l ∈ lines, (tagValueOf l).isSome = true) →
      scanAux n lines = (lines.filterMap tagValueOf, none) := by
  induction lines with
  | nil => intro n _; rfl
  | cons line rest ih =>
    intro n h
    have hline := h line (List.mem_cons_self line rest)
    cases htv : tagValueOf line with
    | none => rw [htv] at hline; simp at hline
    | some tv =>
      have hrest := ih (n + 1) (fun l hl => h l (List.mem_cons_of_mem line hl))
      simp [scanAux, htv, hrest, List.filterMap_cons]

theorem scanAux_stops (pre : List (List (String × JVal))) :
    ∀ (n : Nat) (bad : List (String × JVal))
      (post : List (List (String × JVal))),
      (∀ l ∈ pre, (tagValueOf l).isSome = true) →
      tagValueOf bad = none →
      scanAux n (pre ++ bad :: post)
        = (pre.filterMap tagValueOf, some (n + pre.length)) := by
  induction pre with
  | nil =>
    intro n bad post _ hbad
    simp [scanAux, hbad]
  | cons line rest ih =>
    intro n bad post h hbad
    have hline := h line (List.mem_cons_self line rest)
    cases htv : tagValueOf line with
    | none => rw [htv] at hline; simp at hline
    | some tv =>
      have hrest := ih (n + 1) bad post
        (fun l hl => h l (List.mem_cons_of_mem line hl)) hbad
      simp [scanAux, htv, hrest, List.filterMap_cons]
      omega

/-- C6: scanning a stream whose lines all carry a string `tag` and a
`value` dispatches exactly one `(tag, value)` call per line, in order,
with no error; and as soon as a line lacks either field or its `tag` is
not a string, the scan stops with the malformed-record error carrying
that line's 1-based number, having dispatched only the earlier lines. -/
theorem scan_dispatches_and_reports_line :
    (∀ lines : List (List (String × JVal)),
      (∀ l ∈ lines, (tagValueOf l).isSome = true) →
      scanTrace lines = (lines.filterMap tagValueOf, none))
    ∧ (∀ (pre : List (List (String × JVal))) (bad : List (String × JVal))
        (post : List (List (String × JVal))),
      (∀ l ∈ pre, (tagValueOf l).isSome = true) →
      tagValueOf bad = none →
      scanTrace (pre ++ bad :: post)
        = (pre.filterMap tagValueOf, some (pre.length + 1))) := by
  constructor
  · intro lines h
    exact scanAux_all_ok lines 1 h
  · intro pre bad post h hbad
    rw [scanTrace, scanAux_stops pre 1 bad post h hbad, Nat.add_comm]

/-- Witness for C6 at a concrete stream: one good line is dispatched, the
malformed second line stops the scan reporting line 2, the third line is
never processed. -/
theorem scan_dispatches_and_reports_line_witness :
    scanTrace [[("tag", .jstr "edit"), ("value", .jnum 1)],
               [("tag", .jnum 3), ("value", .jnum 2)],
               [("tag", .jstr "submission"), ("value", .jnum 3)]]
      = ([("edit", .jnum 1)], some 2) := by
  have h := scan_dispatches_and_reports_line.2
    [[("tag", .jstr "edit"), ("value", .jnum 1)]]
    [("tag", .jnum 3), ("value", .jnum 2)]
    [[("tag", .jstr "submission"), ("value", .jnum 3)]]
    (by intro l hl; rw [List.mem_singleton.mp hl]; rfl) rfl
  simpa using h

theorem find_edit_events_nil_of_no_match (events : List Event)
    (snapid : String) (h : ∀ e ∈ events, matchesSnapid snapid e = false) :
    find_edit_events_with_snapid events snapid = [] := by
  unfold find_edit_events_with_snapid
  exact List.filter_eq_nil_iff.mpr (fun e he => by simp [h e he])

/-- C7: `find_single_edit_event_with_snapid` returns `none` when no Edit
event's snapids contain the id, the unique matching Edit when exactly one
does, and the multiple-matches error when two or more do. -/
theorem find_single_edit_event_spec :
    ∀ (events : List Event) (snapid : String),
      ((∀ e ∈ events, matchesSnapid snapid e = false) →
        find_single_edit_event_with_snapid events snapid = .ok none)
      ∧ (∀ e : Event, find_edit_events_with_snapid events snapid = [e] →
        find_single_edit_event_with_snapid events snapid = .ok (some e))
      ∧ (2 ≤ (find_edit_events_with_snapid events snapid).length →
        find_single_edit_event_with_snapid events snapid
          = .error .multipleMatches) := by
  intro events snapid
  refine ⟨?_, ?_, ?_⟩
  · intro h
    have h0 := find_edit_events_nil_of_no_match events snapid h
    simp [find_single_edit_event_with_snapid, h0]
  · intro e he
    simp [find_single_edit_event_with_snapid, he]
  · intro h2
    have h0 : (find_edit_events_with_snapid events snapid).length ≠ 0 := by omega
    have h1 : (find_edit_events_with_snapid events snapid).length ≠ 1 := by omega
    simp [find_single_edit_event_with_snapid, h0, h1]

/-- Witness for C7 at the three concrete scenarios: two matches for
`"s1"` fail, one match for `"s2"` is returned, zero matches for `"s3"`
give `none`. -/
theorem find_single_edit_event_spec_witness :
    find_single_edit_event_with_snapid
        [{ kind := .edit, ts := 1, snapids := some ["s1"] },
         { kind := .edit, ts := 2, snapids := some ["s1", "s2"] }] "s1"
      = .error .multipleMatches
    ∧ find_single_edit_event_with_snapid
        [{ kind := .edit, ts := 1, snapids := some ["s1"] },
         { kind := .edit, ts := 2, snapids := some ["s1", "s2"] }] "s2"
      = .ok (some { kind := .edit, ts := 2, snapids := some ["s1", "s2"] })
    ∧ find_single_edit_event_with_snapid
        [{ kind := .edit, ts := 1, snapids := some ["s1"] },
         { kind := .edit, ts := 2, snapids := some ["s1", "s2"] }] "s3"
      = .ok none :=
  ⟨(find_single_edit_event_spec _ "s1").2.2 (by decide),
   (find_single_edit_event_spec _ "s2").2.1 _ (by decide),
   (find_single_edit_event_spec _ "s3").1 (by decide)⟩

theorem lexLt_irrefl : ∀ a : List Char, lexLt a a = false := by
  intro a
  induction a with
  | nil => rfl
  | cons x xs ih => simp [lexLt, ih]

theorem lexLt_asymm_of_ne : ∀ a b : List Char,
    a ≠ b → lexLt a b = false → lexLt b a = true := by
  intro a
  induction a with
  | nil =>
    intro b hne hf
    cases b with
    | nil => exact absurd rfl hne
    | cons y ys => simp [lexLt] at hf
  | cons x xs ih =>
    intro b hne hf
    cases b with
    | nil => rfl
    | cons y ys =>
      by_cases hxy : x = y
      · subst hxy
        have hne2 : xs ≠ ys := fun h => hne (by rw [h])
        simp only [lexLt, if_pos rfl] at hf ⊢
        exact ih ys hne2 hf
      · simp only [lexLt, if_neg hxy, decide_eq_false_iff_not] at hf
        simp only [lexLt, if_neg (Ne.symm hxy), decide_eq_true_eq]
        exact lt_of_le_of_ne (not_lt.mp hf) (Ne.symm hxy)

theorem lexLt_trans : ∀ a b c : List Char,
    lexLt a b = true → lexLt b c = true → lexLt a c = true := by
  intro a
  induction a with
  | nil =>
    intro b c hab hbc
    cases b with
    | nil => simp [lexLt] at hab
    | cons y ys =>
      cases c with
      | nil => simp [lexLt] at hbc
      | cons z zs => rfl
  | cons x xs ih =>
    intro b c hab hbc
    cases b with
    | nil => simp [lexLt] at hab
    | cons y ys =>
      cases c with
      | nil => simp [lexLt] at hbc
      | cons z zs =>
        by_cases hxy : x = y <;> by_cases hyz : y = z
        · subst hxy; subst hyz
          simp only [lexLt, if_pos rfl] at hab hbc ⊢
          exact ih ys zs hab hbc
        · subst hxy
          simp only [lexLt, if_pos rfl, if_neg hyz] at hab hbc ⊢
          exact hbc
        · subst hyz
          simp only [lexLt, if_neg hxy] at hab ⊢
          exact hab
        · simp only [lexLt, if_neg hxy, if_neg hyz, decide_eq_true_eq]
            at hab hbc
          have hxz : x < z := lt_trans hab hbc
          simp [lexLt, ne_of_lt hxz, hxz]

theorem mem_insertSortedDedup (x m : List Char) : ∀ l : List (List Char),
    m ∈ insertSortedDedup x l ↔ m = x ∨ m ∈ l := by
  intro l
  induction l with
  | nil => simp [insertSortedDedup]
  | cons y ys ih =>
    unfold insertSortedDedup
    by_cases hxy : x = y
    · subst hxy
      rw [if_pos rfl]
      simp only [List.mem_cons]
      tauto
    · by_cases hlt : lexLt x y = true
      · rw [if_neg hxy, if_pos hlt]
        simp only [List.mem_cons]
      · rw [if_neg hxy, if_neg hlt]
        simp only [List.mem_cons, ih]
        tauto

theorem pairwise_insertSortedDedup (x : List Char) :
    ∀ l : List (List Char),
    List.Pairwise (fun a b => lexLt a b = true) l →
    List.Pairwise (fun a b => lexLt a b = true) (insertSortedDedup x l) := by
  intro l
  induction l with
  | nil => intro _; simp [insertSortedDedup]
  | cons y ys ih =>
    intro h
    have hy := (List.pairwise_cons.mp h).1
    have hys := (List.pairwise_cons.mp h).2
    unfold insertSortedDedup
    by_cases hxy : x = y
    · simp only [if_pos hxy]; exact h
    · by_cases hlt : lexLt x y = true
      · simp only [if_neg hxy, hlt, if_true]
        refine List.pairwise_cons.mpr ⟨?_, h⟩
        intro b hb
        rcases List.mem_cons.mp hb with rfl | hbys
        · exact hlt
        · exact lexLt_trans x y b hlt (hy b hbys)
      · simp only [if_neg hxy, hlt, if_false]
        refine List.pairwise_cons.mpr ⟨?_, ih hys⟩
        intro b hb
        rcases (mem_insertSortedDedup x b ys).mp hb with hbx | hbys
        · rw [hbx]
          exact lexLt_asymm_of_ne x y hxy (by simpa using hlt)
        · exact hy b hbys

theorem pairwise_sortedDedup (l : List (List Char)) :
    List.Pairwise (fun a b => lexLt a b = true) (sortedDedup l) := by
  induction l with
  | nil => simp [sortedDedup]
  | cons x xs ih => exact pairwise_insertSortedDedup x (sortedDedup xs) ih

theorem mem_sortedDedup (m : List Char) : ∀ l : List (List Char),
    m ∈ sortedDedup l ↔ m ∈ l := by
  intro l
  induction l with
  | nil => simp [sortedDedup]
  | cons x xs ih =>
    have : sortedDedup (x :: xs) = insertSortedDedup x (sortedDedup xs) := rfl
    rw [this, mem_insertSortedDedup, ih]
    simp

theorem zipMembers_cons (f : List Char) (rest : List (List Char))
    (path : List Char) :
    zipMembers (f :: rest) path
      = if (path ++ ['/']).isPrefixOf f then
          if f.drop (path ++ ['/']).length ≠ [] then
            zipMemberOf (f.drop (path ++ ['/']).length) :: zipMembers rest path
          else zipMembers rest path
        else zipMembers rest path := by
  rfl

theorem mem_zipMembers (m path : List Char) : ∀ names : List (List Char),
    m ∈ zipMembers names path ↔
      ∃ fname ∈ names, (path ++ ['/']).isPrefixOf fname = true
        ∧ fname.drop (path ++ ['/']).length ≠ []
        ∧ m = zipMemberOf (fname.drop (path ++ ['/']).length) := by
  intro names
  induction names with
  | nil => simp [zipMembers]
  | cons f rest ih =>
    rw [zipMembers_cons]
    by_cases hpfx : (path ++ ['/']).isPrefixOf f = true
    · by_cases hrest : f.drop (path ++ ['/']).length ≠ []
      · rw [if_pos hpfx, if_pos hrest]
        simp only [List.mem_cons]
        constructor
        · intro h
          rcases h with rfl | hm
          · exact ⟨f, Or.inl rfl, hpfx, hrest, rfl⟩
          · rcases ih.mp hm with ⟨g, hg, h1, h2, h3⟩
            exact ⟨g, Or.inr hg, h1, h2, h3⟩
        · intro ⟨g, hg, h1, h2, h3⟩
          rcases hg with rfl | hgr
          · left; rw [h3]
          · right; exact ih.mpr ⟨g, hgr, h1, h2, h3⟩
      · rw [if_pos hpfx, if_neg hrest, ih]
        constructor
        · intro ⟨g, hg, h1, h2, h3⟩
          exact ⟨g, List.mem_cons_of_mem f hg, h1, h2, h3⟩
        · intro ⟨g, hg, h1, h2, h3⟩
          rcases List.mem_cons.mp hg with rfl | hgr
          · exact absurd h2 (by simpa using hrest)
          · exact ⟨g, hgr, h1, h2, h3⟩
    · rw [if_neg hpfx, ih]
      constructor
      · intro ⟨g, hg, h1, h2, h3⟩
        exact ⟨g, List.mem_cons_of_mem f hg, h1, h2, h3⟩
      · intro ⟨g, hg, h1, h2, h3⟩
        rcases List.mem_cons.mp hg with rfl | hgr
        · exact absurd h1 hpfx
        · exact ⟨g, hgr, h1, h2, h3⟩

/-- C8 counterexample: the plain-directory backend returns `os.listdir`'s
list unchanged, so on a directory whose entries the operating system
enumerates as `["b", "a"]` the result is `["b", "a"]`, which is not the
sorted set of child names the claim promises for both backends. -/
theorem directory_listdir_unsorted_counterexample :
    directory_listdir [⟨"base/h", ["b", "a"]⟩] "base" "h" = ["b", "a"]
    ∧ (directory_listdir [⟨"base/h", ["b", "a"]⟩] "base" "h").map String.toList
      ≠ sortedDedup ((directory_listdir [⟨"base/h", ["b", "a"]⟩]
          "base" "h").map String.toList) := by
  exact ⟨rfl, by decide⟩

/-- C8 amended: the archive backend's `listdir` is the strictly sorted,
duplicate-free list of exactly the members extracted from the entries
extending `path ++ "/"`; the plain-directory backend returns the child
names in the order the operating system enumerates them, neither sorted
nor deduplicated (witnessed by the counterexample). -/
theorem zipfile_listdir_sorted_set :
    ∀ (names : List (List Char)) (path : List Char),
      List.Pairwise (fun a b => lexLt a b = true) (zipfile_listdir names path)
      ∧ (zipfile_listdir names path).Nodup
      ∧ (∀ m, m ∈ zipfile_listdir names path ↔
          ∃ fname ∈ names, (path ++ ['/']).isPrefixOf fname = true
            ∧ fname.drop (path ++ ['/']).length ≠ []
            ∧ m = zipMemberOf (fname.drop (path ++ ['/']).length)) := by
  intro names path
  have hpw : List.Pairwise (fun a b => lexLt a b = true)
      (zipfile_listdir names path) := pairwise_sortedDedup _
  refine ⟨hpw, ?_, ?_⟩
  · exact hpw.imp (fun hab => by
      intro heq
      rw [heq] at hab
      rw [lexLt_irrefl] at hab
      exact Bool.false_ne_true hab)
  · intro m
    rw [zipfile_listdir, mem_sortedDedup, mem_zipMembers]

theorem dictLookup_map_overwrite {α : Type} (k : String) (v : α) :
    ∀ d : List (String × α), d.any (fun p => p.1 = k) = true →
    dictLookup (d.map (fun p => if p.1 = k then (k, v) else p)) k = some v := by
  intro d
  induction d with
  | nil => intro h; simp at h
  | cons p rest ih =>
    intro h
    by_cases hp : p.1 = k
    · simp [dictLookup, hp]
    · have hrest : rest.any (fun p => p.1 = k) = true := by
        simp only [List.any_cons] at h
        simpa [hp] using h
      simpa [dictLookup, hp] using ih hrest

theorem dictLookup_append_fresh {α : Type} (k : String) (v : α) :
    ∀ d : List (String × α), d.any (fun p => p.1 = k) = false →
    dictLookup (d ++ [(k, v)]) k = some v := by
  intro d
  induction d with
  | nil => intro _; simp [dictLookup]
  | cons p rest ih =>
    intro h
    simp only [List.any_cons, Bool.or_eq_false_iff] at h
    have hp : ¬ p.1 = k := by simpa using h.1
    simpa [dictLookup, hp] using ih (h.2)

theorem dictLookup_dictInsert_self {α : Type} (d : List (String × α))
    (k : String) (v : α) : dictLookup (dictInsert d k v) k = some v := by
  unfold dictInsert
  cases hany : d.any (fun p => p.1 = k)
  · simp only [hany, Bool.false_eq_true, if_false]
    exact dictLookup_append_fresh k v d hany
  · simp only [hany, if_true]
    exact dictLookup_map_overwrite k v d hany

/-- C10: a record tagged `"unknown"` is always dispatched to the
catch-all fallback (the binding of `'unknown'` in the handler dict), as
is every tag with no registered handler, and registering a callback under
`"unknown"` makes it the handler returned for every unregistered tag. -/
theorem unknown_tag_reserved_fallback :
    (∀ (α : Type) (th : TagHandler α),
      th.get_callback "unknown" = th.fallback)
    ∧ (∀ (α : Type) (th : TagHandler α) (tag : String),
      dictContains th.handlers tag = false →
      th.get_callback tag = th.fallback)
    ∧ (∀ (α : Type) (th : TagHandler α) (cb : α),
      (th.register_callback "unknown" cb).fallback = some cb)
    ∧ (∀ (α : Type) (th : TagHandler α) (cb : α) (tag : String),
      dictContains (th.register_callback "unknown" cb).handlers tag = false →
      (th.register_callback "unknown" cb).get_callback tag = some cb) := by
  refine ⟨?_, ?_, ?_, ?_⟩
  · intro α th
    unfold TagHandler.get_callback TagHandler.fallback
    split <;> rfl
  · intro α th tag hc
    simp [TagHandler.get_callback, TagHandler.fallback, hc]
  · intro α th cb
    exact dictLookup_dictInsert_self th.handlers "unknown" cb
  · intro α th cb tag hc
    simp only [TagHandler.get_callback, hc, Bool.false_eq_true, if_false]
    exact dictLookup_dictInsert_self th.handlers "unknown" cb

/-- Witness for C10 at a concrete handler table. -/
theorem unknown_tag_reserved_fallback_witness :
    ((TagHandler.init 0 [("edit", 1)]).register_callback "unknown" 7
      ).get_callback "submission" = some 7 :=
  unknown_tag_reserved_fallback.2.2.2 Nat (TagHandler.init 0 [("edit", 1)])
    7 "submission" (by decide)

end Progsnap
